import Mathlib

/-!
# Verification of `heritage`: a copy-on-write binary search tree with O(1) snapshots

This development is a shallow embedding of `src/lib.rs`.  The Rust code stores
one element per node with two child slots, each in one of three ownership
states: `Exclusive(Box<Node>)` (uniquely owned, mutable in place),
`Shared(Arc<Box<Node>>)` (reference counted, read-only) and `None`.

Embedding choices:
* `Exclusive(Box<..>)` children are uniquely owned in Rust, so they are
  embedded inline as a child node value.
* `Shared(Arc<..>)` children alias.  The code never mutates through an `Arc`
  (`make_exclusive` clones out of it, `contains` reads through it,
  `Child::make_shared` is a no-op on an already-`Shared` slot), so `Arc`
  allocations live in an append-only heap `Heap T = List (Node T)` and a
  `Shared` slot stores the address (list index) of its node.
  `Arc::new` appends to the heap; `Arc::clone` copies the address.
* `unreachable!()` (the panic in the `Clone` impl, reached through
  `Child::make_exclusive`) is modelled by `Option`: `none` is a panic.
* The recursive functions that dereference heap addresses (`contains`,
  `insert`) are given an explicit fuel parameter for termination; one unit of
  fuel is consumed per recursive layer.  On well-formed states every shared
  address points strictly below the address of the node holding it, so the
  generous fuel `fuelFor` is always sufficient and the fuel value is
  irrelevant (proved below as stability lemmas).
-/

namespace Heritage

mutual
/-- Embeds `struct Node<T> { children: [Child<Node<T>>; 2], element: T }`.
`Node.mk l r e` has left child slot `l` (index 0), right child slot `r`
(index 1) and element `e`. -/
inductive Node (T : Type) : Type where
  | mk : Child T → Child T → T → Node T

/-- Embeds `enum Child<T> { Exclusive(Box<T>), Shared(Arc<Box<T>>), None }`
at `T = Node`.  `shared a` stores the heap address of the `Arc` pointee. -/
inductive Child (T : Type) : Type where
  | exclusive : Node T → Child T
  | shared : Nat → Child T
  | none : Child T
end

deriving instance DecidableEq for Node

/-- The store of `Arc` pointees.  Addresses are list indices; `Arc::new`
appends, nothing is ever overwritten (the code never writes through an
`Arc`). -/
abbrev Heap (T : Type) := List (Node T)

variable {T : Type}

mutual
/-- Number of inline (boxed) nodes of a node value, counting 1 per node and
per slot.  Termination measure and fuel-accounting measure. -/
def nodeSize : Node T → Nat
  | Node.mk l r _ => childSize l + childSize r + 1

/-- See `nodeSize`. -/
def childSize : Child T → Nat
  | Child.exclusive b => nodeSize b + 1
  | Child.shared _ => 1
  | Child.none => 1
end

mutual
/-- Strict upper bound (sup of `a+1`) on heap addresses appearing in a node
value. -/
def nodeMaxRef : Node T → Nat
  | Node.mk l r _ => max (childMaxRef l) (childMaxRef r)

/-- See `nodeMaxRef`. -/
def childMaxRef : Child T → Nat
  | Child.exclusive b => nodeMaxRef b
  | Child.shared a => a + 1
  | Child.none => 0
end

/-- Whether the slot is not in the `Exclusive` state. -/
def childNotExcl : Child T → Bool
  | Child.exclusive _ => false
  | Child.shared _ => true
  | Child.none => true

/-- Whether neither slot of the node is in the `Exclusive` state. -/
def nodeNoExcl : Node T → Bool
  | Node.mk l r _ => childNotExcl l && childNotExcl r

/-- Heap well-formedness: every stored node refers only to strictly smaller
addresses and has no `Exclusive` slot.  Both hold by construction of
`make_shared`, which allocates children before parents and shares every
`Exclusive` slot before its node is allocated. -/
def heapWF (h : Heap T) : Bool :=
  (List.range h.length).all fun a =>
    match h[a]? with
    | some m => decide (nodeMaxRef m ≤ a) && nodeNoExcl m
    | Option.none => true

/-- A well-formed tree handle over a heap: the heap is well formed and the
handle's shared slots point into the heap. -/
def goodState (h : Heap T) (n : Node T) : Bool :=
  heapWF h && decide (nodeMaxRef n ≤ h.length)

/-! ## The source operations -/

/-- Embeds `Node::new`: `Node { children: [Child::None, Child::None], element }`. -/
def Node.new (element : T) : Node T :=
  Node.mk Child.none Child.none element

/-- Embeds the closure `duplicate_child` of `impl Clone for Node`:
`Shared(c) => Shared(c.clone())` (the `Arc` is cloned, i.e. the address is
copied), `None => None`, and `Exclusive(_) => unreachable!()`, the panic
being modelled as `Option.none`. -/
def duplicate_child : Child T → Option (Child T)
  | Child.shared c => some (Child.shared c)
  | Child.none => some Child.none
  | Child.exclusive _ => Option.none

/-- Embeds `Node::clone`: duplicate both child slots with `duplicate_child`
and clone the element. -/
def Node.clone (n : Node T) : Option (Node T) :=
  match n with
  | Node.mk l r e =>
    match duplicate_child l, duplicate_child r with
    | some l', some r' => some (Node.mk l' r' e)
    | _, _ => Option.none

/-- Embeds `Child::make_exclusive`: a `Shared` slot is replaced by
`Exclusive(arc.deref().clone())` (dereference the address and `Node::clone`
the pointee); other slots are untouched.  A dangling address cannot occur in
Rust and is mapped to a failure. -/
def Child.make_exclusive (h : Heap T) : Child T → Option (Child T)
  | Child.shared a =>
    match h[a]? with
    | some m => (Node.clone m).map Child.exclusive
    | Option.none => Option.none
  | c => some c

/-- Embeds `Child::make_shared`: an `Exclusive` slot is replaced by
`Shared(Arc::new(b))`, i.e. the boxed node is moved into the heap and the
slot stores its fresh address; other slots are untouched. -/
def Child.make_shared (h : Heap T) : Child T → Heap T × Child T
  | Child.exclusive b => (h ++ [b], Child.shared h.length)
  | c => (h, c)

variable [LinearOrder T]

mutual
/-- Embeds `Node::contains`.  `fuel` is a termination device (one unit per
recursive layer); with fuel exhausted the result is `false`, and on
well-formed states `fuelFor` units make the fuel irrelevant. -/
def Node.contains : Nat → Heap T → Node T → T → Bool
  | 0, _, _, _ => false
  | fuel + 1, h, Node.mk l r e, v =>
    if e = v then true
    else if v < e then containsSlot fuel h l v else containsSlot fuel h r v

/-- The slot dispatch of `Node::contains`:
`Exclusive(b) => b.contains(v)`, `Shared(arc) => arc.contains(v)`,
`None => false`. -/
def containsSlot : Nat → Heap T → Child T → T → Bool
  | 0, _, _, _ => false
  | fuel + 1, h, Child.exclusive b, v => Node.contains fuel h b v
  | fuel + 1, h, Child.shared a, v =>
    match h[a]? with
    | some m => Node.contains fuel h m v
    | Option.none => false
  | _, _, Child.none, _ => false
end

mutual
/-- Embeds `Node::insert` (signature `fn insert(&mut self, v: T)` read as a
state transformer on the heap and the receiver).  `fuel` is a termination
device as in `Node.contains`; `Option.none` covers both fuel exhaustion and
a panic inside `make_exclusive`.  The heap component of the result is
returned explicitly to express that `insert` never allocates into or
modifies the shared heap. -/
def Node.insert : Nat → Heap T → Node T → T → Option (Heap T × Node T)
  | 0, _, _, _ => Option.none
  | fuel + 1, h, Node.mk l r e, v =>
    if e = v then some (h, Node.mk l r e)
    else if v < e then
      match insertSlot fuel h l v with
      | some (h2, l') => some (h2, Node.mk l' r e)
      | Option.none => Option.none
    else
      match insertSlot fuel h r v with
      | some (h2, r') => some (h2, Node.mk l r' e)
      | Option.none => Option.none

/-- The slot handling of `Node::insert`: a `None` slot receives the new leaf
`Exclusive(Box::new(Node::new(v)))`; otherwise the slot is promoted with
`make_exclusive` and, if (as always on success) it is then `Exclusive`,
`insert` recurses into it.  The dead fall-through of the Rust
`if let Child::Exclusive` leaves the slot unchanged. -/
def insertSlot : Nat → Heap T → Child T → T → Option (Heap T × Child T)
  | _, h, Child.none, v => some (h, Child.exclusive (Node.new v))
  | 0, _, Child.exclusive _, _ => Option.none
  | 0, _, Child.shared _, _ => Option.none
  | fuel + 1, h, Child.exclusive b, v =>
    match Child.make_exclusive h (Child.exclusive b) with
    | some (Child.exclusive child) =>
      match Node.insert fuel h child v with
      | some (h2, child') => some (h2, Child.exclusive child')
      | Option.none => Option.none
    | some c' => some (h, c')
    | Option.none => Option.none
  | fuel + 1, h, Child.shared a, v =>
    match Child.make_exclusive h (Child.shared a) with
    | some (Child.exclusive child) =>
      match Node.insert fuel h child v with
      | some (h2, child') => some (h2, Child.exclusive child')
      | Option.none => Option.none
    | some c' => some (h, c')
    | Option.none => Option.none
end

mutual
/-- Embeds `Node::make_shared`: for each child slot in order (left then
right), if the slot is `Exclusive` first recursively share the child node,
then promote the slot itself with `Child::make_shared` (which allocates the
boxed node into the heap).  Slots already `Shared` or `None` are untouched
(both steps are no-ops on them). -/
def Node.make_shared : Heap T → Node T → Heap T × Node T
  | h, Node.mk l r e =>
    let pl := shareSlot h l
    let pr := shareSlot pl.1 r
    (pr.1, Node.mk pl.2 pr.2 e)

/-- One iteration of the loop body of `Node::make_shared` on a single slot. -/
def shareSlot : Heap T → Child T → Heap T × Child T
  | h, Child.exclusive b =>
    let p := Node.make_shared h b
    Child.make_shared p.1 (Child.exclusive p.2)
  | h, Child.shared a => Child.make_shared h (Child.shared a)
  | h, Child.none => Child.make_shared h Child.none
end

/-- Embeds `Node::snapshot`: `self.make_shared(); self.clone()`.  Returns the
final heap, the mutated receiver, and the cloned snapshot handle (`Option`
because `clone` can in principle panic; it never does here, see
`snapshot_clone_total`). -/
def Node.snapshot (h : Heap T) (n : Node T) : Heap T × Node T × Option (Node T) :=
  let p := Node.make_shared h n
  (p.1, p.2, Node.clone p.2)

end Heritage

namespace Heritage

/-! ## Pure binary trees: the abstraction of a handle

A handle together with a heap denotes an ordinary binary tree, obtained by
inlining every `Shared` reference.  The claims about elements, shape and
`contains` results are settled through this abstraction. -/

/-- Plain binary trees. -/
inductive PTree (T : Type) : Type where
  | nil : PTree T
  | node : PTree T → T → PTree T → PTree T
deriving DecidableEq

variable {T : Type}

/-- In-order element list of a pure tree. -/
def pelems : PTree T → List T
  | PTree.nil => []
  | PTree.node l e r => pelems l ++ e :: pelems r

/-- Number of nodes of a pure tree. -/
def psize : PTree T → Nat
  | PTree.nil => 0
  | PTree.node l _ r => psize l + psize r + 1

variable [LinearOrder T]

/-- Pure-tree counterpart of `Node::contains`, same comparison structure. -/
def pcontains : PTree T → T → Bool
  | PTree.nil, _ => false
  | PTree.node l e r, v =>
    if e = v then true
    else if v < e then pcontains l v else pcontains r v

/-- Pure-tree counterpart of `Node::insert`, same comparison structure:
duplicates are dropped, smaller values go left, others go right. -/
def pinsert : PTree T → T → PTree T
  | PTree.nil, v => PTree.node PTree.nil v PTree.nil
  | PTree.node l e r, v =>
    if e = v then PTree.node l e r
    else if v < e then PTree.node (pinsert l v) e r
    else PTree.node l e (pinsert r v)

/-- Strict binary-search-tree invariant: left elements strictly below, right
elements strictly above the node element. -/
inductive PBST : PTree T → Prop where
  | nil : PBST PTree.nil
  | node {l : PTree T} {e : T} {r : PTree T} :
      (∀ x ∈ pelems l, x < e) → (∀ x ∈ pelems r, e < x) →
      PBST l → PBST r → PBST (PTree.node l e r)

/-- The ordering invariant exactly as the specification words it: left
subtree strictly less, right subtree greater-or-equal, at every node. -/
def SpecOrdered : PTree T → Prop
  | PTree.nil => True
  | PTree.node l e r =>
    (∀ x ∈ pelems l, x < e) ∧ (∀ x ∈ pelems r, e ≤ x) ∧
      SpecOrdered l ∧ SpecOrdered r

mutual
/-- Abstraction of a handle over a heap into a pure tree, fueled exactly like
`Node.contains` (one unit per layer, truncating to `nil` on exhaustion or on
a dangling address). -/
def absNode : Nat → Heap T → Node T → PTree T
  | 0, _, _ => PTree.nil
  | fuel + 1, h, Node.mk l r e => PTree.node (absSlot fuel h l) e (absSlot fuel h r)

/-- See `absNode`. -/
def absSlot : Nat → Heap T → Child T → PTree T
  | 0, _, _ => PTree.nil
  | fuel + 1, h, Child.exclusive b => absNode fuel h b
  | fuel + 1, h, Child.shared a =>
    match h[a]? with
    | some m => absNode fuel h m
    | Option.none => PTree.nil
  | _, _, Child.none => PTree.nil
end

/-- Fuel threshold above which `absNode`/`Node.contains`/`Node.insert` on a
node whose addresses lie below `b` are fuel-independent (over a well-formed
heap). -/
def thN (n : Node T) (b : Nat) : Nat := nodeSize n + 4 * b + 4

/-- Slot version of `thN`. -/
def thC (c : Child T) (b : Nat) : Nat := childSize c + 4 * b + 4

/-- The canonical (always sufficient) fuel for a handle over a heap. -/
def fuelFor (h : Heap T) (n : Node T) : Nat := thN n h.length

/-- The function `Node.contains` at the canonical fuel: the denotation of
`fn contains(&self, v: T) -> bool` on a handle. -/
def containsM (h : Heap T) (n : Node T) (v : T) : Bool :=
  Node.contains (fuelFor h n) h n v

/-- The function `Node.insert` at the canonical fuel: the denotation of
`fn insert(&mut self, v: T)` on a handle. -/
def insertM (h : Heap T) (n : Node T) (v : T) : Option (Heap T × Node T) :=
  Node.insert (fuelFor h n) h n v

/-- The function `absNode` at the canonical fuel: the pure tree denoted by a handle. -/
def absM (h : Heap T) (n : Node T) : PTree T :=
  absNode (fuelFor h n) h n

end Heritage

namespace Heritage

variable {T : Type}

/-! ## Basic facts about sizes, the heap and `clone` -/

theorem childSize_pos (c : Child T) : 0 < childSize c := by
  cases c <;> simp [childSize]

theorem nodeSize_pos (n : Node T) : 0 < nodeSize n := by
  cases n; simp [nodeSize]

theorem childSize_of_notExcl {c : Child T} (hc : childNotExcl c = true) :
    childSize c = 1 := by
  cases c <;> simp_all [childNotExcl, childSize]

theorem nodeSize_of_noExcl {n : Node T} (hn : nodeNoExcl n = true) :
    nodeSize n = 3 := by
  cases n with
  | mk l r e =>
    simp only [nodeNoExcl, Bool.and_eq_true] at hn
    simp [nodeSize, childSize_of_notExcl hn.1, childSize_of_notExcl hn.2]

theorem getElem?_heap_ext {h h' : Heap T} (hp : h <+: h') {a : Nat}
    (ha : a < h.length) : h'[a]? = h[a]? := by
  obtain ⟨t, rfl⟩ := hp
  exact List.getElem?_append_left ha

theorem heapWF_iff {h : Heap T} :
    heapWF h = true ↔
      ∀ a m, h[a]? = some m → nodeMaxRef m ≤ a ∧ nodeNoExcl m = true := by
  unfold heapWF
  rw [List.all_eq_true]
  constructor
  · intro H a m hm
    have ha : a < h.length := by
      by_contra hge
      rw [List.getElem?_eq_none (Nat.le_of_not_lt hge)] at hm
      exact Option.noConfusion hm
    have := H a (List.mem_range.mpr ha)
    rw [hm] at this
    simpa using this
  · intro H a _
    cases hm : h[a]? with
    | none => simp
    | some m => simpa using H a m hm

theorem heapWF_append {h : Heap T} {b : Node T} (hw : heapWF h = true)
    (hr : nodeMaxRef b ≤ h.length) (hx : nodeNoExcl b = true) :
    heapWF (h ++ [b]) = true := by
  rw [heapWF_iff] at hw ⊢
  intro a m hm
  rcases Nat.lt_trichotomy a h.length with ha | ha | ha
  · rw [List.getElem?_append_left ha] at hm
    exact hw a m hm
  · subst ha
    rw [List.getElem?_concat_length] at hm
    cases hm
    exact ⟨hr, hx⟩
  · rw [List.getElem?_eq_none (by simp; omega)] at hm
    exact Option.noConfusion hm

theorem clone_of_noExcl {n : Node T} (hn : nodeNoExcl n = true) :
    Node.clone n = some n := by
  cases n with
  | mk l r e =>
    simp only [nodeNoExcl, Bool.and_eq_true] at hn
    obtain ⟨hl, hr⟩ := hn
    cases l <;> cases r <;> simp_all [childNotExcl, Node.clone, duplicate_child]

theorem clone_some {n b : Node T} (hc : Node.clone n = some b) :
    b = n ∧ nodeNoExcl n = true := by
  cases n with
  | mk l r e =>
    cases l <;> cases r <;>
      simp_all [Node.clone, duplicate_child, nodeNoExcl, childNotExcl]

theorem absSlot_none {h : Heap T} : ∀ f, absSlot f h Child.none = PTree.nil := by
  intro f; cases f <;> simp [absSlot]

/-! ## Stability of the abstraction

The abstraction (hence `contains`) does not depend on the fuel once the fuel
is above the `thN`/`thC` threshold, and does not change when the heap is
extended on the right, provided the state is well formed. -/

theorem abs_heap_ext_all {h h' : Heap T} (hp : h <+: h') (hw : heapWF h = true) :
    ∀ fuel,
      (∀ n : Node T, nodeMaxRef n ≤ h.length →
          absNode fuel h' n = absNode fuel h n) ∧
      (∀ c : Child T, childMaxRef c ≤ h.length →
          absSlot fuel h' c = absSlot fuel h c) := by
  intro fuel
  induction fuel with
  | zero =>
    constructor
    · intro n _; cases n; rfl
    · intro c _; cases c <;> rfl
  | succ f ih =>
    constructor
    · intro n hn
      cases n with
      | mk l r e =>
        simp only [nodeMaxRef, Nat.max_le] at hn
        simp only [absNode]
        rw [ih.2 l hn.1, ih.2 r hn.2]
    · intro c hc
      cases c with
      | exclusive b =>
        simp only [absSlot]
        exact ih.1 b (by simpa [childMaxRef] using hc)
      | shared a =>
        have ha : a < h.length := by simp only [childMaxRef] at hc; omega
        simp only [absSlot]
        rw [getElem?_heap_ext hp ha]
        cases hm : h[a]? with
        | none => rfl
        | some m =>
          have hm' := (heapWF_iff.mp hw) a m hm
          exact ih.1 m (le_trans hm'.1 (le_of_lt ha))
      | none => simp [absSlot]

theorem abs_fuel_all {h : Heap T} (hw : heapWF h = true) :
    ∀ f1 : Nat,
      (∀ (n : Node T) (b f2 : Nat), nodeMaxRef n ≤ b →
          thN n b ≤ f1 → thN n b ≤ f2 → absNode f1 h n = absNode f2 h n) ∧
      (∀ (c : Child T) (b f2 : Nat), childMaxRef c ≤ b →
          thC c b ≤ f1 → thC c b ≤ f2 → absSlot f1 h c = absSlot f2 h c) := by
  intro f1
  induction f1 using Nat.strong_induction_on with
  | _ f1 ih =>
    constructor
    · intro n b f2 hn h1 h2
      cases n with
      | mk l r e =>
        have hl := childSize_pos l
        have hr := childSize_pos r
        have hsz : nodeSize (Node.mk l r e) = childSize l + childSize r + 1 := rfl
        simp only [thN, hsz] at h1 h2
        obtain ⟨g1, rfl⟩ : ∃ g, f1 = g + 1 := ⟨f1 - 1, by omega⟩
        obtain ⟨g2, rfl⟩ : ∃ g, f2 = g + 1 := ⟨f2 - 1, by omega⟩
        simp only [nodeMaxRef, Nat.max_le] at hn
        simp only [absNode]
        rw [(ih g1 (by omega)).2 l b g2 hn.1 (by simp only [thC]; omega)
              (by simp only [thC]; omega),
            (ih g1 (by omega)).2 r b g2 hn.2 (by simp only [thC]; omega)
              (by simp only [thC]; omega)]
    · intro c b f2 hc h1 h2
      cases c with
      | none => rw [absSlot_none, absSlot_none]
      | exclusive bn =>
        have hsz : childSize (Child.exclusive bn) = nodeSize bn + 1 := rfl
        have hb := nodeSize_pos bn
        simp only [thC, hsz] at h1 h2
        obtain ⟨g1, rfl⟩ : ∃ g, f1 = g + 1 := ⟨f1 - 1, by omega⟩
        obtain ⟨g2, rfl⟩ : ∃ g, f2 = g + 1 := ⟨f2 - 1, by omega⟩
        simp only [absSlot]
        exact (ih g1 (by omega)).1 bn b g2 (by simpa [childMaxRef] using hc)
          (by simp only [thN]; omega) (by simp only [thN]; omega)
      | shared a =>
        simp only [childMaxRef] at hc
        simp only [thC, childSize] at h1 h2
        obtain ⟨g1, rfl⟩ : ∃ g, f1 = g + 1 := ⟨f1 - 1, by omega⟩
        obtain ⟨g2, rfl⟩ : ∃ g, f2 = g + 1 := ⟨f2 - 1, by omega⟩
        simp only [absSlot]
        cases hm : h[a]? with
        | none => rfl
        | some m =>
          have hm' := (heapWF_iff.mp hw) a m hm
          have hms : nodeSize m = 3 := nodeSize_of_noExcl hm'.2
          exact (ih g1 (by omega)).1 m a g2 hm'.1
            (by simp only [thN]; omega) (by simp only [thN]; omega)

theorem absNode_fuel {h : Heap T} (hw : heapWF h = true) {n : Node T}
    {b f1 f2 : Nat} (hn : nodeMaxRef n ≤ b) (h1 : thN n b ≤ f1)
    (h2 : thN n b ≤ f2) : absNode f1 h n = absNode f2 h n :=
  (abs_fuel_all hw f1).1 n b f2 hn h1 h2

theorem absNode_eq_absM {h : Heap T} {n : Node T} (hw : heapWF h = true)
    (hn : nodeMaxRef n ≤ h.length) {f : Nat} (hf : fuelFor h n ≤ f) :
    absNode f h n = absM h n :=
  absNode_fuel hw hn hf le_rfl


/-! ## `contains` factors through the abstraction -/

variable [LinearOrder T]

theorem contains_eq_pcontains_all (fuel : Nat) (h : Heap T) :
    (∀ (n : Node T) (v : T),
        Node.contains fuel h n v = pcontains (absNode fuel h n) v) ∧
    (∀ (c : Child T) (v : T),
        containsSlot fuel h c v = pcontains (absSlot fuel h c) v) := by
  induction fuel with
  | zero =>
    constructor
    · intro n _; cases n; rfl
    · intro c _; cases c <;> rfl
  | succ f ih =>
    constructor
    · intro n v
      cases n with
      | mk l r e =>
        by_cases he : e = v
        · simp [Node.contains, absNode, pcontains, he]
        · by_cases hv : v < e <;>
            simp [Node.contains, absNode, pcontains, he, hv, ih.2]
    · intro c v
      cases c with
      | exclusive b => simp [containsSlot, absSlot, ih.1]
      | shared a =>
        cases hm : h[a]? <;> simp [containsSlot, absSlot, hm, ih.1, pcontains]
      | none => simp [containsSlot, absSlot_none, pcontains]

theorem contains_eq_pcontains (fuel : Nat) (h : Heap T) (n : Node T) (v : T) :
    Node.contains fuel h n v = pcontains (absNode fuel h n) v :=
  (contains_eq_pcontains_all fuel h).1 n v

theorem containsM_eq_pcontains (h : Heap T) (n : Node T) (v : T) :
    containsM h n v = pcontains (absM h n) v :=
  contains_eq_pcontains _ h n v

/-! ## The `make_shared` pass

`Node::make_shared` only extends the heap (with well-formed, fully `Shared`
nodes), leaves the denoted pure tree untouched at every fuel, and leaves the
receiver with no `Exclusive` slot. -/

theorem make_shared_master :
    ∀ k : Nat,
      (∀ (n : Node T) (h : Heap T), nodeSize n ≤ k → heapWF h = true →
        nodeMaxRef n ≤ h.length →
        h <+: (Node.make_shared h n).1 ∧
        heapWF (Node.make_shared h n).1 = true ∧
        nodeMaxRef (Node.make_shared h n).2 ≤ (Node.make_shared h n).1.length ∧
        nodeNoExcl (Node.make_shared h n).2 = true ∧
        (∀ f, absNode f (Node.make_shared h n).1 (Node.make_shared h n).2 =
          absNode f h n)) ∧
      (∀ (c : Child T) (h : Heap T), childSize c ≤ k → heapWF h = true →
        childMaxRef c ≤ h.length →
        h <+: (shareSlot h c).1 ∧
        heapWF (shareSlot h c).1 = true ∧
        childMaxRef (shareSlot h c).2 ≤ (shareSlot h c).1.length ∧
        childNotExcl (shareSlot h c).2 = true ∧
        (∀ f, absSlot f (shareSlot h c).1 (shareSlot h c).2 = absSlot f h c)) := by
  intro k
  induction k using Nat.strong_induction_on with
  | _ k ih =>
    constructor
    · intro n h hk hw hn
      cases n with
      | mk l r e =>
        have hkl : childSize l < k := by
          have := childSize_pos r
          simp only [nodeSize] at hk; omega
        have hkr : childSize r < k := by
          have := childSize_pos l
          simp only [nodeSize] at hk; omega
        simp only [nodeMaxRef, Nat.max_le] at hn
        obtain ⟨Hl1, Hl2, Hl3, Hl4, Hl5⟩ :=
          (ih (childSize l) hkl).2 l h le_rfl hw hn.1
        have hrr : childMaxRef r ≤ (shareSlot h l).1.length :=
          le_trans hn.2 Hl1.length_le
        obtain ⟨Hr1, Hr2, Hr3, Hr4, Hr5⟩ :=
          (ih (childSize r) hkr).2 r (shareSlot h l).1 le_rfl Hl2 hrr
        have hms : Node.make_shared h (Node.mk l r e)
            = ((shareSlot (shareSlot h l).1 r).1,
               Node.mk (shareSlot h l).2 (shareSlot (shareSlot h l).1 r).2 e) := rfl
        rw [hms]
        refine ⟨Hl1.trans Hr1, Hr2, ?_, ?_, ?_⟩
        · simp only [nodeMaxRef, Nat.max_le]
          exact ⟨le_trans Hl3 Hr1.length_le, Hr3⟩
        · simp only [nodeNoExcl, Bool.and_eq_true]
          exact ⟨Hl4, Hr4⟩
        · intro f
          cases f with
          | zero => rfl
          | succ g =>
            simp only [absNode]
            rw [Hr5 g,
              (abs_heap_ext_all Hr1 Hl2 g).2 (shareSlot h l).2 Hl3,
              Hl5 g,
              (abs_heap_ext_all Hl1 hw g).2 r hn.2]
    · intro c h hk hw hc
      cases c with
      | none =>
        exact ⟨show h <+: h from ⟨[], List.append_nil h⟩, hw, by simp [shareSlot, Child.make_shared,
          childMaxRef], rfl, fun f => rfl⟩
      | shared a =>
        exact ⟨show h <+: h from ⟨[], List.append_nil h⟩, hw, hc, rfl, fun f => rfl⟩
      | exclusive b =>
        have hkb : nodeSize b < k := by simp only [childSize] at hk; omega
        obtain ⟨Hb1, Hb2, Hb3, Hb4, Hb5⟩ :=
          (ih (nodeSize b) hkb).1 b h le_rfl hw (by simpa [childMaxRef] using hc)
        have hss : shareSlot h (Child.exclusive b)
            = ((Node.make_shared h b).1 ++ [(Node.make_shared h b).2],
               Child.shared (Node.make_shared h b).1.length) := rfl
        rw [hss]
        refine ⟨Hb1.trans ⟨[(Node.make_shared h b).2], rfl⟩, heapWF_append Hb2 Hb3 Hb4,
          by simp [childMaxRef], rfl, ?_⟩
        intro f
        cases f with
        | zero => rfl
        | succ g =>
          simp only [absSlot]
          rw [List.getElem?_concat_length]
          show absNode g ((Node.make_shared h b).1 ++ [(Node.make_shared h b).2])
              (Node.make_shared h b).2 = absNode g h b
          rw [(abs_heap_ext_all ⟨[(Node.make_shared h b).2], rfl⟩ Hb2 g).1
                (Node.make_shared h b).2 Hb3,
              Hb5 g]

/-! ## The `insert` operation

On a well-formed state and with fuel above the threshold, `insert` succeeds,
returns the heap unchanged, keeps the handle's addresses in range, and acts
as `pinsert` on the abstraction (at every sufficiently large fuel). -/

theorem insert_master {h : Heap T} (hw : heapWF h = true) :
    ∀ fuel : Nat,
      (∀ (n : Node T) (b : Nat) (v : T), nodeMaxRef n ≤ b → b ≤ h.length →
        thN n b ≤ fuel →
        ∃ n', Node.insert fuel h n v = some (h, n') ∧ nodeMaxRef n' ≤ b ∧
          (∀ F, fuel ≤ F → absNode F h n' = pinsert (absNode F h n) v)) ∧
      (∀ (c : Child T) (b : Nat) (v : T), childMaxRef c ≤ b → b ≤ h.length →
        thC c b ≤ fuel →
        ∃ c', insertSlot fuel h c v = some (h, c') ∧ childMaxRef c' ≤ b ∧
          (∀ F, fuel ≤ F → absSlot F h c' = pinsert (absSlot F h c) v)) := by
  intro fuel
  induction fuel using Nat.strong_induction_on with
  | _ fuel ih =>
    constructor
    · intro n b v hn hbh hth
      cases n with
      | mk l r e =>
        have hposl := childSize_pos l
        have hposr := childSize_pos r
        have hsz : nodeSize (Node.mk l r e) = childSize l + childSize r + 1 := rfl
        simp only [thN, hsz] at hth
        obtain ⟨f, rfl⟩ : ∃ f, fuel = f + 1 := ⟨fuel - 1, by omega⟩
        simp only [nodeMaxRef, Nat.max_le] at hn
        by_cases he : e = v
        · refine ⟨Node.mk l r e, by simp [Node.insert, he], ?_, ?_⟩
          · simp only [nodeMaxRef, Nat.max_le]; exact hn
          · intro F hF
            obtain ⟨G, rfl⟩ : ∃ G, F = G + 1 := ⟨F - 1, by omega⟩
            simp [absNode, pinsert, he]
        · by_cases hv : v < e
          · obtain ⟨c', hceq, hcr, hcabs⟩ :=
              (ih f (by omega)).2 l b v hn.1 hbh (by simp only [thC]; omega)
            refine ⟨Node.mk c' r e, ?_, ?_, ?_⟩
            · simp [Node.insert, he, hv, hceq]
            · simp only [nodeMaxRef, Nat.max_le]; exact ⟨hcr, hn.2⟩
            · intro F hF
              obtain ⟨G, rfl⟩ : ∃ G, F = G + 1 := ⟨F - 1, by omega⟩
              simp only [absNode, pinsert, if_neg he, if_pos hv]
              rw [hcabs G (by omega)]
          · obtain ⟨c', hceq, hcr, hcabs⟩ :=
              (ih f (by omega)).2 r b v hn.2 hbh (by simp only [thC]; omega)
            refine ⟨Node.mk l c' e, ?_, ?_, ?_⟩
            · simp [Node.insert, he, hv, hceq]
            · simp only [nodeMaxRef, Nat.max_le]; exact ⟨hn.1, hcr⟩
            · intro F hF
              obtain ⟨G, rfl⟩ : ∃ G, F = G + 1 := ⟨F - 1, by omega⟩
              simp only [absNode, pinsert, if_neg he, if_neg hv]
              rw [hcabs G (by omega)]
    · intro c b v hc hbh hth
      cases c with
      | none =>
        simp only [thC, childSize] at hth
        obtain ⟨f, rfl⟩ : ∃ f, fuel = f + 1 := ⟨fuel - 1, by omega⟩
        refine ⟨Child.exclusive (Node.new v), rfl, ?_, ?_⟩
        · simp [childMaxRef, Node.new, nodeMaxRef]
        · intro F hF
          obtain ⟨G, rfl⟩ : ∃ G, F = G + 1 := ⟨F - 1, by omega⟩
          obtain ⟨G', rfl⟩ : ∃ K, G = K + 1 := ⟨G - 1, by omega⟩
          simp [absSlot, absNode, absSlot_none, Node.new, pinsert]
      | exclusive bn =>
        have hbsz : childSize (Child.exclusive bn) = nodeSize bn + 1 := rfl
        simp only [thC, hbsz] at hth
        have hbpos := nodeSize_pos bn
        obtain ⟨f, rfl⟩ : ∃ f, fuel = f + 1 := ⟨fuel - 1, by omega⟩
        obtain ⟨n', hneq, hnr, hnabs⟩ :=
          (ih f (by omega)).1 bn b v (by simpa [childMaxRef] using hc) hbh
            (by simp only [thN]; omega)
        refine ⟨Child.exclusive n', ?_, by simpa [childMaxRef] using hnr, ?_⟩
        · have hred : insertSlot (f + 1) h (Child.exclusive bn) v
              = (match Node.insert f h bn v with
                 | some (h2, child') => some (h2, Child.exclusive child')
                 | Option.none => Option.none) := rfl
          rw [hred, hneq]
        · intro F hF
          obtain ⟨G, rfl⟩ : ∃ G, F = G + 1 := ⟨F - 1, by omega⟩
          simp only [absSlot]
          exact hnabs G (by omega)
      | shared a =>
        simp only [thC, childSize] at hth
        simp only [childMaxRef] at hc
        obtain ⟨f, rfl⟩ : ∃ f, fuel = f + 1 := ⟨fuel - 1, by omega⟩
        have ha : a < h.length := by omega
        have hm : h[a]? = some h[a] := List.getElem?_eq_getElem ha
        set m := h[a] with hmdef
        have hwm := heapWF_iff.mp hw a m hm
        have hms : nodeSize m = 3 := nodeSize_of_noExcl hwm.2
        have hclone : Node.clone m = some m := clone_of_noExcl hwm.2
        have h1 : Child.make_exclusive h (Child.shared a)
            = some (Child.exclusive m) := by
          simp [Child.make_exclusive, hm, hclone]
        obtain ⟨n', hneq, hnr, hnabs⟩ :=
          (ih f (by omega)).1 m a v hwm.1 (by omega) (by simp only [thN]; omega)
        refine ⟨Child.exclusive n', ?_, ?_, ?_⟩
        · have hred : insertSlot (f + 1) h (Child.shared a) v
              = (match Child.make_exclusive h (Child.shared a) with
                 | some (Child.exclusive child) =>
                   (match Node.insert f h child v with
                    | some (h2, child') => some (h2, Child.exclusive child')
                    | Option.none => Option.none)
                 | some c' => some (h, c')
                 | Option.none => Option.none) := rfl
          rw [hred, h1]
          show (match Node.insert f h m v with
                | some (h2, child') => some (h2, Child.exclusive child')
                | Option.none => Option.none) = some (h, Child.exclusive n')
          rw [hneq]
        · simp only [childMaxRef]; omega
        · intro F hF
          obtain ⟨G, rfl⟩ : ∃ G, F = G + 1 := ⟨F - 1, by omega⟩
          simp only [absSlot, hm]
          exact hnabs G (by omega)

theorem make_shared_spec {h : Heap T} {n : Node T} (hw : heapWF h = true)
    (hn : nodeMaxRef n ≤ h.length) :
    h <+: (Node.make_shared h n).1 ∧
    heapWF (Node.make_shared h n).1 = true ∧
    nodeMaxRef (Node.make_shared h n).2 ≤ (Node.make_shared h n).1.length ∧
    nodeNoExcl (Node.make_shared h n).2 = true ∧
    (∀ f, absNode f (Node.make_shared h n).1 (Node.make_shared h n).2 =
      absNode f h n) :=
  (make_shared_master (nodeSize n)).1 n h le_rfl hw hn

theorem goodState_iff {h : Heap T} {n : Node T} :
    goodState h n = true ↔ heapWF h = true ∧ nodeMaxRef n ≤ h.length := by
  simp [goodState]

theorem insertM_spec {h : Heap T} {n : Node T} (hg : goodState h n = true)
    (v : T) :
    ∃ n', insertM h n v = some (h, n') ∧ goodState h n' = true ∧
      absM h n' = pinsert (absM h n) v := by
  obtain ⟨hw, hn⟩ := goodState_iff.mp hg
  obtain ⟨n', heq, hr, habs⟩ :=
    (insert_master hw (fuelFor h n)).1 n h.length v hn le_rfl le_rfl
  refine ⟨n', heq, goodState_iff.mpr ⟨hw, hr⟩, ?_⟩
  have h1 := habs (max (fuelFor h n) (fuelFor h n')) (le_max_left _ _)
  rw [absNode_eq_absM hw hr (le_max_right _ _),
      absNode_eq_absM hw hn (le_max_left _ _)] at h1
  exact h1

theorem make_sharedM_spec {h : Heap T} {n : Node T} (hg : goodState h n = true) :
    h <+: (Node.make_shared h n).1 ∧
    goodState (Node.make_shared h n).1 (Node.make_shared h n).2 = true ∧
    nodeNoExcl (Node.make_shared h n).2 = true ∧
    absM (Node.make_shared h n).1 (Node.make_shared h n).2 = absM h n := by
  obtain ⟨hw, hn⟩ := goodState_iff.mp hg
  obtain ⟨H1, H2, H3, H4, H5⟩ := make_shared_spec hw hn
  refine ⟨H1, goodState_iff.mpr ⟨H2, H3⟩, H4, ?_⟩
  set h' := (Node.make_shared h n).1
  set n' := (Node.make_shared h n).2
  have hF := H5 (max (fuelFor h' n') (fuelFor h n))
  rw [absNode_eq_absM H2 H3 (le_max_left _ _)] at hF
  rw [hF]
  exact absNode_eq_absM hw hn (le_max_right _ _)

/-- Abstraction of a handle is unchanged by a heap extension. -/
theorem absM_heap_ext {h h' : Heap T} {n : Node T} (hp : h <+: h')
    (hw : heapWF h = true) (hn : nodeMaxRef n ≤ h.length) :
    absM h' n = absM h n :=
  calc absM h' n = absNode (fuelFor h' n) h' n := rfl
    _ = absNode (fuelFor h' n) h n := (abs_heap_ext_all hp hw (fuelFor h' n)).1 n hn
    _ = absM h n := absNode_eq_absM hw hn
        (by simp only [fuelFor, thN]; have := hp.length_le; omega)

/-! ## Pure binary-search-tree lemmas -/

theorem pcontains_pinsert_self (t : PTree T) (v : T) :
    pcontains (pinsert t v) v = true := by
  induction t with
  | nil => simp [pinsert, pcontains]
  | node l e r ihl ihr =>
    by_cases he : e = v
    · simp [pinsert, pcontains, he]
    · by_cases hv : v < e <;> simp [pinsert, pcontains, he, hv, ihl, ihr]

theorem pcontains_pinsert_other {u v : T} (huv : u ≠ v) (t : PTree T) :
    pcontains (pinsert t v) u = pcontains t u := by
  induction t with
  | nil =>
    have : v ≠ u := fun hvu => huv hvu.symm
    by_cases hu : u < v <;> simp [pinsert, pcontains, this, hu]
  | node l e r ihl ihr =>
    by_cases he : e = v
    · simp [pinsert, he]
    · by_cases heu : e = u
      · subst heu
        by_cases hv : v < e <;> simp [pinsert, pcontains, he, hv]
      · by_cases hv : v < e <;> by_cases hu : u < e <;>
          simp [pinsert, pcontains, he, heu, hv, hu, ihl, ihr]

theorem pinsert_of_pcontains {t : PTree T} {v : T}
    (hc : pcontains t v = true) : pinsert t v = t := by
  induction t with
  | nil => simp [pcontains] at hc
  | node l e r ihl ihr =>
    by_cases he : e = v
    · simp [pinsert, he]
    · by_cases hv : v < e
      · simp only [pcontains, if_neg he, if_pos hv] at hc
        simp [pinsert, he, hv, ihl hc]
      · simp only [pcontains, if_neg he, if_neg hv] at hc
        simp [pinsert, he, hv, ihr hc]

theorem mem_pelems_pinsert {t : PTree T} {v x : T}
    (hx : x ∈ pelems (pinsert t v)) : x ∈ pelems t ∨ x = v := by
  induction t with
  | nil => simpa [pinsert, pelems] using hx
  | node l e r ihl ihr =>
    by_cases he : e = v
    · simp only [pinsert, if_pos he] at hx
      exact Or.inl hx
    · by_cases hv : v < e
      · simp only [pinsert, if_neg he, if_pos hv, pelems, List.mem_append,
          List.mem_cons] at hx ⊢
        rcases hx with hx | hx
        · rcases ihl hx with h' | h'
          · exact Or.inl (Or.inl h')
          · exact Or.inr h'
        · exact Or.inl (Or.inr hx)
      · simp only [pinsert, if_neg he, if_neg hv, pelems, List.mem_append,
          List.mem_cons] at hx ⊢
        rcases hx with hx | hx
        · exact Or.inl (Or.inl hx)
        · rcases hx with hx | hx
          · exact Or.inl (Or.inr (Or.inl hx))
          · rcases ihr hx with h' | h'
            · exact Or.inl (Or.inr (Or.inr h'))
            · exact Or.inr h'

theorem PBST_pinsert {t : PTree T} (hb : PBST t) (v : T) :
    PBST (pinsert t v) := by
  induction hb with
  | nil =>
    simp only [pinsert]
    exact PBST.node (by simp [pelems]) (by simp [pelems]) PBST.nil PBST.nil
  | @node l e r hl hr bl br ihl ihr =>
    by_cases he : e = v
    · simp only [pinsert, if_pos he]
      exact PBST.node hl hr bl br
    · by_cases hv : v < e
      · simp only [pinsert, if_neg he, if_pos hv]
        refine PBST.node ?_ hr ihl br
        intro x hx
        rcases mem_pelems_pinsert hx with h' | h'
        · exact hl x h'
        · exact h' ▸ hv
      · simp only [pinsert, if_neg he, if_neg hv]
        refine PBST.node hl ?_ bl ihr
        intro x hx
        rcases mem_pelems_pinsert hx with h' | h'
        · exact hr x h'
        · subst h'
          exact lt_of_le_of_ne (not_lt.mp hv) he

theorem PBST.pairwise {t : PTree T} (hb : PBST t) :
    List.Pairwise (· < ·) (pelems t) := by
  induction hb with
  | nil => simp [pelems]
  | @node l e r hl hr _ _ ihl ihr =>
    simp only [pelems]
    rw [List.pairwise_append]
    refine ⟨ihl, List.pairwise_cons.mpr ⟨hr, ihr⟩, ?_⟩
    intro x hx y hy
    rcases List.mem_cons.mp hy with rfl | hy
    · exact hl x hx
    · exact lt_trans (hl x hx) (hr y hy)

theorem PBST.nodup {t : PTree T} (hb : PBST t) : (pelems t).Nodup :=
  hb.pairwise.imp ne_of_lt

theorem SpecOrdered_of_PBST {t : PTree T} (hb : PBST t) : SpecOrdered t := by
  induction hb with
  | nil => trivial
  | @node l e r hl hr _ _ ihl ihr =>
    exact ⟨hl, fun x hx => le_of_lt (hr x hx), ihl, ihr⟩

theorem absM_new (h : Heap T) (e : T) :
    absM h (Node.new e) = PTree.node PTree.nil e PTree.nil := by
  have hgen : ∀ f, 1 ≤ f →
      absNode f h (Node.new e) = PTree.node PTree.nil e PTree.nil := by
    intro f hf
    obtain ⟨g, rfl⟩ : ∃ g, f = g + 1 := ⟨f - 1, by omega⟩
    simp [absNode, Node.new, absSlot_none]
  exact hgen _ (by simp only [fuelFor, thN]; omega)

theorem goodState_new (h : Heap T) (e : T) (hw : heapWF h = true) :
    goodState h (Node.new e) = true := by
  rw [goodState_iff]
  refine ⟨hw, ?_⟩
  simp [Node.new, nodeMaxRef, childMaxRef]

/-! ## The system: all states reachable through the public API

A system state is the shared heap together with the tree handles the caller
holds.  One step is one call of a public operation on one handle: `new`
creates a handle, `insert` mutates one in place, `snapshot` promotes one to
fully-`Shared` and appends the cloned handle, `clone` appends a shallow
duplicate.  (`contains` takes `&self` and changes nothing.)  A mutating call
whose embedding returns `none` is a Rust panic and produces no state. -/

structure Sys (T : Type) where
  heap : Heap T
  handles : List (Node T)

inductive Step : Sys T → Sys T → Prop where
  | newTree (h : Heap T) (ts : List (Node T)) (e : T) :
      Step ⟨h, ts⟩ ⟨h, ts ++ [Node.new e]⟩
  | insertOp (h : Heap T) (ts : List (Node T)) (i : Nat) (v : T)
      (n : Node T) (h2 : Heap T) (n' : Node T) :
      ts[i]? = some n → insertM h n v = some (h2, n') →
      Step ⟨h, ts⟩ ⟨h2, ts.set i n'⟩
  | snapshotOp (h : Heap T) (ts : List (Node T)) (i : Nat)
      (n b : Node T) :
      ts[i]? = some n → Node.clone (Node.make_shared h n).2 = some b →
      Step ⟨h, ts⟩
        ⟨(Node.make_shared h n).1, (ts.set i (Node.make_shared h n).2) ++ [b]⟩
  | cloneOp (h : Heap T) (ts : List (Node T)) (i : Nat) (n b : Node T) :
      ts[i]? = some n → Node.clone n = some b →
      Step ⟨h, ts⟩ ⟨h, ts ++ [b]⟩

/-- Reachable from the empty initial state by any sequence of operations. -/
def Reachable (s : Sys T) : Prop :=
  Relation.ReflTransGen Step ⟨[], []⟩ s

/-- The master invariant: the heap is well formed and every handle points
into the heap and denotes a strict binary search tree. -/
def Inv (s : Sys T) : Prop :=
  heapWF s.heap = true ∧
  ∀ t ∈ s.handles, nodeMaxRef t ≤ s.heap.length ∧ PBST (absM s.heap t)

theorem Inv_step {s s' : Sys T} (hi : Inv s) (hs : Step s s') : Inv s' := by
  obtain ⟨hw, hh⟩ := hi
  cases hs with
  | newTree h ts e =>
    refine ⟨hw, fun t ht => ?_⟩
    rcases List.mem_append.mp ht with ht | ht
    · exact hh t ht
    · rcases List.mem_singleton.mp ht with rfl
      constructor
      · simp [Node.new, nodeMaxRef, childMaxRef]
      · rw [absM_new]
        exact PBST.node (by simp [pelems]) (by simp [pelems]) PBST.nil PBST.nil
  | insertOp h ts i v n h2 n' hn hins =>
    have hmem : n ∈ ts := List.getElem?_mem hn
    obtain ⟨hnr, hnb⟩ := hh n hmem
    obtain ⟨n'', heq, hg', habs⟩ :=
      insertM_spec (goodState_iff.mpr ⟨hw, hnr⟩) v
    rw [heq] at hins
    rw [Option.some.injEq, Prod.mk.injEq] at hins
    obtain ⟨rfl, rfl⟩ := hins
    refine ⟨hw, fun t ht => ?_⟩
    rcases List.mem_or_eq_of_mem_set ht with ht | rfl
    · exact hh t ht
    · obtain ⟨_, hr'⟩ := goodState_iff.mp hg'
      exact ⟨hr', habs ▸ PBST_pinsert hnb v⟩
  | snapshotOp h ts i n b hn hcl =>
    have hmem : n ∈ ts := List.getElem?_mem hn
    obtain ⟨hnr, hnb⟩ := hh n hmem
    obtain ⟨H1, Hg, Hx, Habs⟩ := make_sharedM_spec (goodState_iff.mpr ⟨hw, hnr⟩)
    obtain ⟨Hw', Hr'⟩ := goodState_iff.mp Hg
    obtain ⟨rfl, -⟩ := clone_some hcl
    refine ⟨Hw', fun t ht => ?_⟩
    rcases List.mem_append.mp ht with ht | ht
    · rcases List.mem_or_eq_of_mem_set ht with ht | rfl
      · obtain ⟨htr, htb⟩ := hh t ht
        exact ⟨le_trans htr H1.length_le, absM_heap_ext H1 hw htr ▸ htb⟩
      · exact ⟨Hr', Habs ▸ hnb⟩
    · rcases List.mem_singleton.mp ht with rfl
      exact ⟨Hr', Habs ▸ hnb⟩
  | cloneOp h ts i n b hn hcl =>
    have hmem : n ∈ ts := List.getElem?_mem hn
    obtain ⟨rfl, -⟩ := clone_some hcl
    refine ⟨hw, fun t ht => ?_⟩
    rcases List.mem_append.mp ht with ht | ht
    · exact hh t ht
    · rcases List.mem_singleton.mp ht with rfl
      exact hh _ hmem

theorem reachable_inv {s : Sys T} (hr : Reachable s) : Inv s := by
  induction hr with
  | refl =>
    exact ⟨rfl, by simp⟩
  | tail _ hstep ih => exact Inv_step ih hstep

/-! ## Remaining helper lemmas for the claims -/

theorem shareSlot_notExcl (h : Heap T) (c : Child T) :
    childNotExcl (shareSlot h c).2 = true := by
  cases c <;> rfl

theorem make_shared_noExcl (h : Heap T) (n : Node T) :
    nodeNoExcl (Node.make_shared h n).2 = true := by
  cases n with
  | mk l r e =>
    show (childNotExcl (shareSlot h l).2 &&
      childNotExcl (shareSlot (shareSlot h l).1 r).2) = true
    rw [shareSlot_notExcl, shareSlot_notExcl]
    rfl

theorem make_shared_of_noExcl {n : Node T} (hx : nodeNoExcl n = true)
    (h : Heap T) : Node.make_shared h n = (h, n) := by
  cases n with
  | mk l r e =>
    simp only [nodeNoExcl, Bool.and_eq_true] at hx
    have hl : shareSlot h l = (h, l) := by
      cases l with
      | exclusive b => exact absurd hx.1 (by simp [childNotExcl])
      | shared a => rfl
      | none => rfl
    have hr : ∀ h0 : Heap T, shareSlot h0 r = (h0, r) := by
      intro h0
      cases r with
      | exclusive b => exact absurd hx.2 (by simp [childNotExcl])
      | shared a => rfl
      | none => rfl
    show ((shareSlot (shareSlot h l).1 r).1,
      Node.mk (shareSlot h l).2 (shareSlot (shareSlot h l).1 r).2 e) =
        (h, Node.mk l r e)
    rw [hl, hr]

/-- Left child slot accessor. -/
def Node.left : Node T → Child T
  | Node.mk l _ _ => l

/-- Right child slot accessor. -/
def Node.right : Node T → Child T
  | Node.mk _ r _ => r

/-- Element accessor. -/
def Node.element : Node T → T
  | Node.mk _ _ e => e

/-- One slot of the receiver before and after `snapshot`: either untouched,
or promoted from `Exclusive` to `Shared`. -/
def slotPromoted : Child T → Child T → Prop :=
  fun c c' => c' = c ∨ ∃ b a, c = Child.exclusive b ∧ c' = Child.shared a

theorem shareSlot_promoted (h : Heap T) (c : Child T) :
    slotPromoted c (shareSlot h c).2 := by
  cases c with
  | exclusive b =>
    exact Or.inr ⟨b, (Node.make_shared h b).1.length, rfl, rfl⟩
  | shared a => exact Or.inl rfl
  | none => exact Or.inl rfl

end Heritage

namespace Heritage

variable {T : Type} [LinearOrder T]

/-! ## The claims -/

/-- Claim C1: for every (well-formed) tree and every value `v`, `insert(tree, v)`
succeeds without touching the heap, after it `contains(tree, v)` returns
`true`, and every value `u` with `contains(tree, u) = true` before the call
still satisfies `contains(tree, u) = true` after it. -/
theorem C1_insert_then_contains {h : Heap T} {n : Node T}
    (hg : goodState h n = true) (v : T) :
    ∃ n', insertM h n v = some (h, n') ∧ containsM h n' v = true ∧
      ∀ u, containsM h n u = true → containsM h n' u = true := by
  obtain ⟨n', heq, hg', habs⟩ := insertM_spec hg v
  refine ⟨n', heq, ?_, ?_⟩
  · rw [containsM_eq_pcontains, habs]
    exact pcontains_pinsert_self _ _
  · intro u hu
    rw [containsM_eq_pcontains, habs]
    rw [containsM_eq_pcontains] at hu
    by_cases huv : u = v
    · subst huv
      exact pcontains_pinsert_self _ _
    · rw [pcontains_pinsert_other huv]
      exact hu

/-- Witness for C1 at the concrete tree `new 12` over the empty heap. -/
theorem C1_witness :
    ∃ n', insertM ([] : Heap Nat) (Node.new 12) 15 = some ([], n') ∧
      containsM [] n' 15 = true ∧
      ∀ u, containsM [] (Node.new 12) u = true → containsM [] n' u = true :=
  C1_insert_then_contains (by decide) 15


/-- Claim C2: given tree `A` and `B = snapshot(A)`, inserting a value `v` that is
not present into `B` succeeds without touching the heap, makes `v` visible in
`B`, and does not make `v` visible via `contains` on `A`; symmetrically,
inserting `v` into `A` after the snapshot does not make it visible via
`contains` on `B`. -/
theorem C2_snapshot_independence {h : Heap T} {a : Node T}
    (hg : goodState h a = true) {h' : Heap T} {a' : Node T}
    {ob : Option (Node T)} (hsnap : Node.snapshot h a = (h', a', ob))
    {b : Node T} (hob : ob = some b) {v : T}
    (hfresh : containsM h' b v = false) :
    (∃ h2 b', insertM h' b v = some (h2, b') ∧
      containsM h2 a' v = false ∧ containsM h2 b' v = true) ∧
    (∃ h3 a2, insertM h' a' v = some (h3, a2) ∧
      containsM h3 b v = false ∧ containsM h3 a2 v = true) := by
  rw [Prod.ext_iff, Prod.ext_iff] at hsnap
  obtain ⟨e1, e2, e3⟩ := hsnap
  subst e1; subst e2; subst e3
  obtain ⟨H1, Hg, Hx, Habs⟩ := make_sharedM_spec hg
  have hclone : Node.clone (Node.make_shared h a).2 = some b := hob
  obtain ⟨rfl, -⟩ := clone_some hclone
  obtain ⟨b', heq, hg', habs⟩ := insertM_spec Hg v
  have hvis : containsM (Node.make_shared h a).1 b' v = true := by
    rw [containsM_eq_pcontains, habs]
    exact pcontains_pinsert_self _ _
  exact ⟨⟨_, b', heq, hfresh, hvis⟩, ⟨_, b', heq, hfresh, hvis⟩⟩

/-- Witness for C2 on the spec scenario tree `{12, 15}`. -/
theorem C2_witness :
    (∃ h2 b', insertM [Node.new 15]
        (Node.mk Child.none (Child.shared 0) (12:Nat)) 13 = some (h2, b') ∧
      containsM h2 (Node.mk Child.none (Child.shared 0) 12) 13 = false ∧
      containsM h2 b' 13 = true) ∧
    (∃ h3 a2, insertM [Node.new 15]
        (Node.mk Child.none (Child.shared 0) (12:Nat)) 13 = some (h3, a2) ∧
      containsM h3 (Node.mk Child.none (Child.shared 0) 12) 13 = false ∧
      containsM h3 a2 13 = true) :=
  C2_snapshot_independence (h := []) (a := Node.mk Child.none
      (Child.exclusive (Node.new 15)) 12)
    (by decide) rfl rfl (by decide)

/-- Claim C3: immediately after `B = snapshot(A)`, every value is contained in the
(post-snapshot) receiver `A` iff it is contained in `B` (the clone returned
by `snapshot` is an identical shallow copy of the promoted root). -/
theorem C3_snapshot_equivalence {h : Heap T} {a : Node T} {h' : Heap T}
    {a' : Node T} {ob : Option (Node T)}
    (hsnap : Node.snapshot h a = (h', a', ob)) {b : Node T}
    (hob : ob = some b) (v : T) :
    containsM h' a' v = containsM h' b v := by
  rw [Prod.ext_iff, Prod.ext_iff] at hsnap
  obtain ⟨e1, e2, e3⟩ := hsnap
  subst e1; subst e2; subst e3
  have hclone : Node.clone (Node.make_shared h a).2 = some b := hob
  obtain ⟨rfl, -⟩ := clone_some hclone
  rfl

/-- Witness for C3 on the spec scenario tree `{12, 15}` at the value 15. -/
theorem C3_witness :
    containsM [Node.new 15] (Node.mk Child.none (Child.shared 0) (12:Nat)) 15
      = containsM [Node.new 15] (Node.mk Child.none (Child.shared 0) 12) 15 :=
  C3_snapshot_equivalence (h := []) (a := Node.mk Child.none
      (Child.exclusive (Node.new 15)) 12) rfl rfl 15


/-- Claim C4: the operation `snapshot` never takes the `unreachable!()` branch of `Clone`: after
step 1 (`make_shared`) has promoted every slot of the root, the shallow
duplication of step 2 always succeeds — for every heap and every receiver,
with no well-formedness assumption at all. -/
theorem C4_snapshot_clone_total (h : Heap T) (n : Node T) :
    ∃ b, (Node.snapshot h n).2.2 = some b := by
  refine ⟨(Node.make_shared h n).2, ?_⟩
  show Node.clone (Node.make_shared h n).2 = some (Node.make_shared h n).2
  exact clone_of_noExcl (make_shared_noExcl h n)

/-- Counterexample for C5: the claim says inserting an already-present value
changes nothing, including the ownership state of every child slot.  Take
the scenario tree: `new 12`, `insert 15`, then promote with `make_shared`
(as `snapshot` does); the receiver is `mk none (shared 0) 12` over the heap
`[new 15]` and contains `15`.  Inserting `15` again promotes the right slot
from `Shared 0` back to `Exclusive`, so the tree is not "exactly as before
the call". -/
theorem C5_counterexample :
    insertM ([] : Heap Nat) (Node.new 12) 15
      = some ([], Node.mk Child.none (Child.exclusive (Node.new 15)) 12) ∧
    Node.make_shared ([] : Heap Nat)
        (Node.mk Child.none (Child.exclusive (Node.new 15)) 12)
      = ([Node.new 15], Node.mk Child.none (Child.shared 0) 12) ∧
    containsM [Node.new 15] (Node.mk Child.none (Child.shared 0) (12:Nat)) 15
      = true ∧
    insertM [Node.new 15] (Node.mk Child.none (Child.shared 0) (12:Nat)) 15
      = some ([Node.new 15],
          Node.mk Child.none (Child.exclusive (Node.new 15)) 12) ∧
    Node.mk Child.none (Child.exclusive (Node.new 15)) (12:Nat)
      ≠ Node.mk Child.none (Child.shared 0) 12 := by
  refine ⟨rfl, rfl, rfl, rfl, ?_⟩
  decide

/-- Amended C5: inserting an already-present value `v` into a well-formed
tree succeeds, leaves the heap untouched and leaves the elements, the shape
and all `contains` results unchanged (the denoted pure tree is exactly as
before); however, `Shared` slots on the search path may be promoted to
`Exclusive`, so the concrete ownership states need not be as before. -/
theorem C5_amended {h : Heap T} {n : Node T} (hg : goodState h n = true)
    {v : T} (hv : containsM h n v = true) :
    ∃ n', insertM h n v = some (h, n') ∧ absM h n' = absM h n ∧
      ∀ u, containsM h n' u = containsM h n u := by
  obtain ⟨n', heq, hg', habs⟩ := insertM_spec hg v
  rw [containsM_eq_pcontains] at hv
  have hid : pinsert (absM h n) v = absM h n := pinsert_of_pcontains hv
  refine ⟨n', heq, by rw [habs, hid], ?_⟩
  intro u
  rw [containsM_eq_pcontains, containsM_eq_pcontains, habs, hid]

/-- Witness for the amended C5 on the scenario tree `{12, 15}` with the `15`
promoted to the heap. -/
theorem C5_amended_witness :
    ∃ n', insertM [Node.new 15]
        (Node.mk Child.none (Child.shared 0) (12:Nat)) 15
      = some ([Node.new 15], n') ∧
      absM [Node.new 15] n'
        = absM [Node.new 15] (Node.mk Child.none (Child.shared 0) 12) ∧
      ∀ u, containsM [Node.new 15] n' u
        = containsM [Node.new 15] (Node.mk Child.none (Child.shared 0) 12) u :=
  C5_amended (by decide) (by decide)


/-- Claim C6: inserting the same value twice: both inserts succeed without touching
the heap, `contains` on the twice-inserted tree agrees with the original
tree on every other value, and the number of distinct nodes of the denoted
tree does not increase over the once-inserted tree (it is equal). -/
theorem C6_no_duplicates {h : Heap T} {n : Node T}
    (hg : goodState h n = true) (v : T) :
    ∃ n1 n2, insertM h n v = some (h, n1) ∧ insertM h n1 v = some (h, n2) ∧
      (∀ u, u ≠ v → containsM h n2 u = containsM h n u) ∧
      psize (absM h n2) = psize (absM h n1) := by
  obtain ⟨n1, he1, hg1, ha1⟩ := insertM_spec hg v
  obtain ⟨n2, he2, hg2, ha2⟩ := insertM_spec hg1 v
  have hid : absM h n2 = absM h n1 := by
    rw [ha2, ha1]
    exact pinsert_of_pcontains (pcontains_pinsert_self _ _)
  refine ⟨n1, n2, he1, he2, ?_, by rw [hid]⟩
  intro u huv
  rw [containsM_eq_pcontains, containsM_eq_pcontains, hid, ha1,
    pcontains_pinsert_other huv]

/-- Witness for C6 at the tree `new 12` over the empty heap, inserting `15`
twice. -/
theorem C6_witness :
    ∃ n1 n2, insertM ([] : Heap Nat) (Node.new 12) 15 = some ([], n1) ∧
      insertM [] n1 15 = some ([], n2) ∧
      (∀ u, u ≠ 15 → containsM [] n2 u = containsM [] (Node.new 12) u) ∧
      psize (absM [] n2) = psize (absM [] n1) :=
  C6_no_duplicates (by decide) 15

/-- Claim C7: every handle of every state reachable by any sequence of `new`,
`insert`, `contains`, `snapshot` (and `clone`) operations denotes a tree in
which, at every node, the left subtree is strictly below the element, the
right subtree is greater-or-equal, and no element occurs twice. -/
theorem C7_bst_invariant {s : Sys T} (hr : Reachable s) {t : Node T}
    (ht : t ∈ s.handles) :
    SpecOrdered (absM s.heap t) ∧ (pelems (absM s.heap t)).Nodup := by
  obtain ⟨-, hh⟩ := reachable_inv hr
  obtain ⟨-, hb⟩ := hh t ht
  exact ⟨SpecOrdered_of_PBST hb, hb.nodup⟩

/-- Witness for C7 at the state reached by one `new 12` operation. -/
theorem C7_witness :
    SpecOrdered (absM ([] : Heap Nat) (Node.new 12)) ∧
    (pelems (absM ([] : Heap Nat) (Node.new 12))).Nodup :=
  C7_bst_invariant
    (Relation.ReflTransGen.single (Step.newTree [] [] 12))
    (List.mem_singleton.mpr rfl)


/-- Claim C8: the only effect of `snapshot` on its receiver is promoting slots from
`Exclusive` to `Shared`: every `contains` result and the denoted pure tree
(elements and shape) are unchanged, the element of the root is unchanged,
and each root slot is either untouched or goes from `Exclusive` to
`Shared`. -/
theorem C8_snapshot_frame {h : Heap T} {n : Node T}
    (hg : goodState h n = true) :
    (∀ v, containsM (Node.snapshot h n).1 (Node.snapshot h n).2.1 v
      = containsM h n v) ∧
    absM (Node.snapshot h n).1 (Node.snapshot h n).2.1 = absM h n ∧
    slotPromoted n.left (Node.snapshot h n).2.1.left ∧
    slotPromoted n.right (Node.snapshot h n).2.1.right ∧
    (Node.snapshot h n).2.1.element = n.element := by
  obtain ⟨H1, Hg, Hx, Habs⟩ := make_sharedM_spec hg
  have habs' : absM (Node.snapshot h n).1 (Node.snapshot h n).2.1
      = absM h n := Habs
  refine ⟨?_, habs', ?_, ?_, ?_⟩
  · intro v
    rw [containsM_eq_pcontains, containsM_eq_pcontains, habs']
  · cases n with
    | mk l r e => exact shareSlot_promoted h l
  · cases n with
    | mk l r e => exact shareSlot_promoted (shareSlot h l).1 r
  · cases n with
    | mk l r e => rfl

/-- Witness for C8 on the scenario tree `{12, 15}` (fully exclusive, over
the empty heap). -/
theorem C8_witness :
    (∀ v, containsM [Node.new 15]
          (Node.mk Child.none (Child.shared 0) (12:Nat)) v
        = containsM [] (Node.mk Child.none (Child.exclusive (Node.new 15)) 12)
            v) ∧
    absM [Node.new 15] (Node.mk Child.none (Child.shared 0) 12)
      = absM [] (Node.mk Child.none (Child.exclusive (Node.new 15)) 12) ∧
    slotPromoted
      (Node.mk Child.none (Child.exclusive (Node.new 15)) (12:Nat)).left
      (Node.mk Child.none (Child.shared 0) (12:Nat)).left ∧
    slotPromoted
      (Node.mk Child.none (Child.exclusive (Node.new 15)) (12:Nat)).right
      (Node.mk Child.none (Child.shared 0) (12:Nat)).right ∧
    (Node.mk Child.none (Child.shared 0) (12:Nat)).element
      = (Node.mk Child.none (Child.exclusive (Node.new 15)) (12:Nat)).element :=
  C8_snapshot_frame (h := ([] : Heap Nat))
    (n := Node.mk Child.none (Child.exclusive (Node.new 15)) 12) (by decide)

/-- Claim C9: the promote-to-shared pass is idempotent: on a tree with no
`Exclusive` slot it changes nothing (neither heap nor receiver), and
`make_shared` after `make_shared` equals a single `make_shared`. -/
theorem C9_make_shared_idempotent (h : Heap T) (n : Node T) :
    (nodeNoExcl n = true → Node.make_shared h n = (h, n)) ∧
    Node.make_shared (Node.make_shared h n).1 (Node.make_shared h n).2
      = Node.make_shared h n := by
  refine ⟨fun hx => make_shared_of_noExcl hx h, ?_⟩
  exact make_shared_of_noExcl (make_shared_noExcl h n) _

/-- Witness for C9 on the already-fully-shared scenario tree. -/
theorem C9_witness :
    Node.make_shared [Node.new 15]
        (Node.mk Child.none (Child.shared 0) (12:Nat))
      = ([Node.new 15], Node.mk Child.none (Child.shared 0) 12) :=
  (C9_make_shared_idempotent _ _).1 (by decide)

/-- Claim C10: in every reachable state, every node stored in the heap (i.e. every
node held by a `Shared` slot) has only `Shared` or `None` child slots: no
`Exclusive` slot ever exists below a `Shared` one. -/
theorem C10_heap_fully_shared {s : Sys T} (hr : Reachable s) :
    ∀ (a : Nat) (m : Node T), s.heap[a]? = some m → nodeNoExcl m = true := by
  obtain ⟨hw, -⟩ := reachable_inv hr
  intro a m hm
  exact (heapWF_iff.mp hw a m hm).2

/-- Witness for C10 at the state reached by `new 12; insert 15; snapshot`,
whose heap holds the shared node `new 15`. -/
theorem C10_witness : nodeNoExcl (Node.new (15:Nat)) = true :=
  C10_heap_fully_shared
    (Relation.ReflTransGen.tail
      (Relation.ReflTransGen.tail
        (Relation.ReflTransGen.single (Step.newTree [] [] 12))
        (Step.insertOp [] [Node.new 12] 0 15 (Node.new 12) []
          (Node.mk Child.none (Child.exclusive (Node.new 15)) 12) (by rfl)
          (by rfl)))
      (Step.snapshotOp []
        [Node.mk Child.none (Child.exclusive (Node.new 15)) 12]
        0 (Node.mk Child.none (Child.exclusive (Node.new 15)) 12)
        (Node.mk Child.none (Child.shared 0) 12) (by rfl) (by rfl)))
    0 (Node.new 15) (by rfl)

end Heritage
